import Mathlib

/-!
Verification of the `argon2id` password-hashing package.

A shallow embedding of the Go package `argon2id` (files `argon2id.go` and the
extended variant with `GenerateFromPassword`).  Bytes are modelled as `Fin 256`,
Go strings as Lean `String`/`List Char`, machine integers as `Nat` with explicit
range checks where the Go scanner enforces them, and fallible operations as
`Except`/`Option`.  The external key-derivation primitive `argon2.IDKey` is an
explicit function parameter; `argon2.Version` is the collaborator's constant
`0x13 = 19`, as pinned by the concrete scenarios in the documentation.
-/

namespace Argon2id

/-- A Go `byte`. -/
abbrev Byte := Fin 256

/-- The error values declared at the top of the package
(`ErrInvalidHash`, `ErrIncompatibleVersion`, `ErrPasswordNotMatch`),
together with the distinct error values that the package propagates from its
collaborators: `fmt.Sscanf` scan failures, `base64` corrupt-input failures and
`io.ReadFull` randomness failures. -/
inductive HashError where
  | ErrInvalidHash
  | ErrIncompatibleVersion
  | ErrPasswordNotMatch
  | scanFailure
  | corruptBase64
  | randomnessFailure
deriving Repr, DecidableEq

/-- `Params` stores the argon2 parameters (Go struct with fields
`Memory uint32`, `Iterations uint32`, `Parallelism uint8`,
`SaltLength uint32`, `KeyLength uint32`). -/
structure Params where
  memory : Nat
  iterations : Nat
  parallelism : Nat
  saltLength : Nat
  keyLength : Nat
deriving Repr, DecidableEq

/-- The bounds imposed by the Go field types of `Params`
(`uint32`, `uint32`, `uint8`, `uint32`, `uint32`). -/
def Params.InBounds (p : Params) : Prop :=
  p.memory < 2 ^ 32 ∧ p.iterations < 2 ^ 32 ∧ p.parallelism < 2 ^ 8 ∧
    p.saltLength < 2 ^ 32 ∧ p.keyLength < 2 ^ 32

instance (p : Params) : Decidable p.InBounds := by
  unfold Params.InBounds; infer_instance

/-- `argon2.Version` from `golang.org/x/crypto/argon2`: `0x13`. -/
def argon2Version : Nat := 19

/-- The signature of `argon2.IDKey` (password, salt, time, memory, threads,
keyLen); the primitive itself is an external collaborator, so it is passed as a
function parameter to the operations that invoke it. -/
abbrev IDKeyFun := List Byte → List Byte → Nat → Nat → Nat → Nat → List Byte

/-! ## `strings.Split(hash, "$")` -/

/-- Go `strings.Split(s, "$")`: the substrings around each `'$'`.
`splitDollar []` is `[[]]`, matching `strings.Split("", "$") = [""]`. -/
def splitDollar : List Char → List (List Char)
  | [] => [[]]
  | c :: rest =>
    if c = '$' then [] :: splitDollar rest
    else
      match splitDollar rest with
      | [] => [[c]]
      | s :: ss => (c :: s) :: ss

/-! ## `fmt.Sscanf` scanners

`fmt.Sscanf(s, "v=%d", &ver)` matches the literal characters exactly, then the
`%d` verb skips leading blanks, accepts an optional sign (the target is a Go
`int`), and requires at least one decimal digit; input left over after the
format is exhausted is ignored.  For unsigned targets (`uint32`, `uint8`) the
verb accepts decimal digits only and fails on overflow of the target width. -/

/-- Decimal value of a list of digit characters, most significant first. -/
def digitsVal (ds : List Char) : Nat :=
  ds.foldl (fun a c => a * 10 + (c.toNat - 48)) 0

/-- The `%d` verb skips blanks (spaces and tabs) before scanning a number. -/
def skipBlanks (s : List Char) : List Char :=
  s.dropWhile fun c => c = ' ' ∨ c = '\t'

/-- Scan a run of decimal digits: the scanned value and the rest of the input,
or `none` when no digit is present. -/
def scanDigits (s : List Char) : Option (Nat × List Char) :=
  let ds := s.takeWhile Char.isDigit
  if ds.isEmpty then none else some (digitsVal ds, s.dropWhile Char.isDigit)

/-- The `%d` verb for a Go `int` target: optional sign then digits. -/
def scanGoInt (s : List Char) : Option (Int × List Char) :=
  match skipBlanks s with
  | '-' :: rest => (scanDigits rest).map fun q => (-(q.1 : Int), q.2)
  | '+' :: rest => (scanDigits rest).map fun q => ((q.1 : Int), q.2)
  | s' => (scanDigits s').map fun q => ((q.1 : Int), q.2)

/-- The `%d` verb for an unsigned Go target of `bits` bits: digits only,
failing on overflow of the target width. -/
def scanGoUint (bits : Nat) (s : List Char) : Option (Nat × List Char) :=
  match scanDigits (skipBlanks s) with
  | none => none
  | some (n, rest) => if n < 2 ^ bits then some (n, rest) else none

/-- `fmt.Sscanf(elem, "v=%d", &ver)` with `ver` a Go `int`: the parsed version,
or `none` on a scan error. -/
def scanVersion (s : List Char) : Option Int :=
  match s with
  | 'v' :: '=' :: rest => (scanGoInt rest).map Prod.fst
  | _ => none

/-- `fmt.Sscanf(elem, "m=%d,t=%d,p=%d", &p.Memory, &p.Iterations,
&p.Parallelism)`: memory and iterations are `uint32`, parallelism is `uint8`. -/
def scanParams (s : List Char) : Option (Nat × Nat × Nat) :=
  match s with
  | 'm' :: '=' :: rest =>
    match scanGoUint 32 rest with
    | none => none
    | some (m, r1) =>
      match r1 with
      | ',' :: 't' :: '=' :: r2 =>
        match scanGoUint 32 r2 with
        | none => none
        | some (t, r3) =>
          match r3 with
          | ',' :: 'p' :: '=' :: r4 =>
            match scanGoUint 8 r4 with
            | none => none
            | some (p, _) => some (m, t, p)
          | _ => none
      | _ => none
  | _ => none

/-! ## `base64.RawStdEncoding` -/

/-- The standard base64 alphabet (RFC 4648, non-URL). -/
def stdAlphabet : List Char :=
  "ABCDEFGHIJKLMNOPQRSTUVWXYZabcdefghijklmnopqrstuvwxyz0123456789+/".data

/-- The character for a 6-bit group. -/
def b64Char (n : Nat) : Char := stdAlphabet.getD n 'A'

/-- The 6-bit value of an alphabet character, `none` for a character outside
the alphabet (including `'='`, which `RawStdEncoding` rejects). -/
def b64Index (c : Char) : Option Nat := stdAlphabet.indexOf? c

/-- Build a byte from a value already known to be below 256. -/
def mkByte (n : Nat) : Byte := ⟨n % 256, Nat.mod_lt _ (by omega)⟩

/-- `base64.RawStdEncoding.EncodeToString`: three bytes become four characters;
a final byte becomes two characters and two final bytes become three, with the
spare low bits of the last character zero. -/
def rawStdEncode : List Byte → List Char
  | [] => []
  | [a] => [b64Char (a.val / 4), b64Char (a.val % 4 * 16)]
  | [a, b] =>
    [b64Char (a.val / 4), b64Char (a.val % 4 * 16 + b.val / 16),
     b64Char (b.val % 16 * 4)]
  | a :: b :: c :: rest =>
    b64Char (a.val / 4) :: b64Char (a.val % 4 * 16 + b.val / 16) ::
      b64Char (b.val % 16 * 4 + c.val / 64) :: b64Char (c.val % 64) ::
        rawStdEncode rest

/-- Decoding of base64 quanta (after newline stripping): four characters yield
three bytes; a final fragment of two or three characters yields one or two
bytes, spare low bits discarded (the encoding is not strict); a fragment of a
single character is corrupt input. -/
def decodeQuanta : List Char → Option (List Byte)
  | [] => some []
  | [_] => none
  | [c1, c2] => do
    let v1 ← b64Index c1
    let v2 ← b64Index c2
    pure [mkByte (v1 * 4 + v2 / 16)]
  | [c1, c2, c3] => do
    let v1 ← b64Index c1
    let v2 ← b64Index c2
    let v3 ← b64Index c3
    pure [mkByte (v1 * 4 + v2 / 16), mkByte (v2 % 16 * 16 + v3 / 4)]
  | c1 :: c2 :: c3 :: c4 :: rest => do
    let v1 ← b64Index c1
    let v2 ← b64Index c2
    let v3 ← b64Index c3
    let v4 ← b64Index c4
    let tl ← decodeQuanta rest
    pure (mkByte (v1 * 4 + v2 / 16) :: mkByte (v2 % 16 * 16 + v3 / 4) ::
      mkByte (v3 % 4 * 64 + v4) :: tl)

/-- `base64.RawStdEncoding.DecodeString`: newline characters are ignored, then
the quanta are decoded. -/
def rawStdDecode (s : List Char) : Option (List Byte) :=
  decodeQuanta (s.filter fun c => ¬(c = '\r' ∨ c = '\n'))

/-! ## `decodeHash` -/

/-- The body of `decodeHash` after `strings.Split`: checks the segment count,
scans the version clause, checks the algorithm tag and version, scans the
parameter clause, and base64-decodes salt and hashed password; `SaltLength`
and `KeyLength` are the decoded byte lengths.  The segment before the first
`'$'` (`elems[0]`) is never inspected. -/
def decodeElems : List (List Char) → Except HashError (Params × List Byte × List Byte)
  | [_e0, e1, e2, e3, e4, e5] =>
    match scanVersion e2 with
    | none => .error .scanFailure
    | some ver =>
      if e1 ≠ "argon2id".data ∨ ver ≠ (argon2Version : Int) then
        .error .ErrIncompatibleVersion
      else
        match scanParams e3 with
        | none => .error .scanFailure
        | some (m, t, pr) =>
          match rawStdDecode e4 with
          | none => .error .corruptBase64
          | some salt =>
            match rawStdDecode e5 with
            | none => .error .corruptBase64
            | some hashedPassword =>
              .ok (⟨m, t, pr, salt.length, hashedPassword.length⟩,
                   salt, hashedPassword)
  | _ => .error .ErrInvalidHash

/-- `decodeHash` decodes the argon2 hash and returns the protection
parameters, the salt and the stored hashed password. -/
def decodeHash (hash : String) : Except HashError (Params × List Byte × List Byte) :=
  decodeElems (splitDollar hash.data)

/-! ## `subtle.ConstantTimeCompare` and `CompareHashAndPassword` -/

/-- `subtle.ConstantTimeCompare`: `0` when the lengths differ; otherwise the
or-accumulation of bytewise xors decides equality (`1` for equal contents). -/
def ConstantTimeCompare (x y : List Byte) : Nat :=
  if x.length ≠ y.length then 0
  else if (List.zipWith (fun a b : Byte => a.val ^^^ b.val) x y).foldl
      (fun a v => a ||| v) 0 = 0 then 1
  else 0

/-- `CompareHashAndPassword` compares an argon2id hashed password with its
possible plaintext equivalent: decode, re-derive with the parsed parameters
and salt, compare in constant time.  Returns `.ok ()` for Go's `nil` error. -/
def CompareHashAndPassword (idKey : IDKeyFun) (hash : String) (pass : List Byte) :
    Except HashError Unit :=
  match decodeHash hash with
  | .error e => .error e
  | .ok (p, salt, hashedPass) =>
    let userHash := idKey pass salt p.iterations p.memory p.parallelism p.keyLength
    if ConstantTimeCompare userHash hashedPass = 0 then .error .ErrPasswordNotMatch
    else .ok ()

/-! ## `GenerateFromPassword` -/

/-- The decimal digit characters. -/
def digitChars : List Char := "0123456789".data

/-- Fuel-driven decimal rendering: most significant digits first.  The fuel
is only a structural-recursion device; `n + 1` units always suffice. -/
def decimalReprAux : Nat → Nat → List Char
  | 0, _ => []
  | fuel + 1, n =>
    if n < 10 then [digitChars.getD n '0']
    else decimalReprAux fuel (n / 10) ++ [digitChars.getD (n % 10) '0']

/-- Decimal rendering of a nonnegative integer, as `fmt.Sprintf("%d", n)`. -/
def decimalRepr (n : Nat) : List Char := decimalReprAux (n + 1) n

/-- The `m=%d,t=%d,p=%d` clause of the serialized record. -/
def paramsClause (memory iterations parallelism : Nat) : List Char :=
  'm' :: '=' :: (decimalRepr memory ++
    ',' :: 't' :: '=' :: (decimalRepr iterations ++
      ',' :: 'p' :: '=' :: decimalRepr parallelism))

/-- The `fmt.Sprintf("$argon2id$v=%d$m=%d,t=%d,p=%d$%s$%s", ...)` line of
`GenerateFromPassword`. -/
def formatHash (memory iterations parallelism : Nat)
    (encodedSalt encodedHash : List Char) : String :=
  ⟨'$' :: ("argon2id".data ++
    '$' :: ('v' :: '=' :: decimalRepr argon2Version ++
      '$' :: (paramsClause memory iterations parallelism ++
        '$' :: (encodedSalt ++ '$' :: encodedHash))))⟩

/-- The default configuration used when the caller passes `nil` parameters. -/
def defaultParams : Params :=
  ⟨4096, 10, 2, 32, 64⟩

/-- `GenerateFromPassword` generates the string representation of argon2id
from the given password and parameters.  The `crypto/rand` source is modelled
as the byte stream `rand`: `io.ReadFull` takes the first `SaltLength` bytes
and fails when the stream is shorter than that. -/
def GenerateFromPassword (idKey : IDKeyFun) (pass : List Byte)
    (pOpt : Option Params) (rand : List Byte) : Except HashError String :=
  let p := match pOpt with
    | none => defaultParams
    | some p => p
  if rand.length < p.saltLength then .error .randomnessFailure
  else
    let unencodedSalt := rand.take p.saltLength
    let hash := idKey pass unencodedSalt p.iterations p.memory p.parallelism p.keyLength
    .ok (formatHash p.memory p.iterations p.parallelism
      (rawStdEncode unencodedSalt) (rawStdEncode hash))

/-- The example argon2id record appearing in the package's comment and tests
(password `"foo123"`). -/
def exampleHash : String :=
  "$argon2id$v=19$m=4096,t=3,p=1$82XldKYgqAqher7EuFzPNw$O1Epnr+m1JYkgtWcgVLID39ro6He105HTFnE+SinJyM"

/-- The 16 salt bytes encoded in `exampleHash`. -/
def exampleSalt : List Byte :=
  [243, 101, 229, 116, 166, 32, 168, 10, 161, 122, 190, 196, 184, 92, 207, 55]

/-- The 32 stored key bytes encoded in `exampleHash`. -/
def exampleKey : List Byte :=
  [59, 81, 41, 158, 191, 166, 212, 150, 36, 130, 213, 156, 129, 82, 200, 15,
   127, 107, 163, 161, 222, 215, 78, 71, 76, 89, 196, 249, 40, 167, 39, 35]

/-- A stand-in for the external key-derivation primitive, used to instantiate
theorems at concrete inputs: `keyLen` copies of the byte `7`. -/
def constIDKey : IDKeyFun := fun _ _ _ _ _ keyLen => List.replicate keyLen 7

/-! ## Helper lemmas: `strings.Split` -/

theorem splitDollar_ne_nil (l : List Char) : splitDollar l ≠ [] := by
  induction l with
  | nil => simp [splitDollar]
  | cons c rest ih =>
    simp only [splitDollar]
    split
    · simp
    · cases h : splitDollar rest <;> simp

theorem splitDollar_no_dollar (l : List Char) (h : '$' ∉ l) : splitDollar l = [l] := by
  induction l with
  | nil => rfl
  | cons c rest ih =>
    have hc : ¬(c = '$') := fun e => h (e ▸ List.mem_cons_self c rest)
    have hr : '$' ∉ rest := fun m => h (List.mem_cons_of_mem c m)
    simp [splitDollar, hc, ih hr]

theorem splitDollar_append (l1 l2 : List Char) (h : '$' ∉ l1) :
    splitDollar (l1 ++ '$' :: l2) = l1 :: splitDollar l2 := by
  induction l1 with
  | nil => simp [splitDollar]
  | cons c rest ih =>
    have hc : ¬(c = '$') := fun e => h (e ▸ List.mem_cons_self c rest)
    have hr : '$' ∉ rest := fun m => h (List.mem_cons_of_mem c m)
    simp [splitDollar, hc, ih hr]

/-! ## Helper lemmas: decimal rendering and scanning -/

theorem or_eq_zero_iff (a b : Nat) : a ||| b = 0 ↔ a = 0 ∧ b = 0 := by
  constructor
  · intro h
    constructor <;>
    · apply Nat.eq_of_testBit_eq
      intro i
      have hbit := congrArg (fun n => Nat.testBit n i) h
      simp only [Nat.testBit_or, Nat.zero_testBit, Bool.or_eq_false_iff] at hbit ⊢
      first
      | exact hbit.1
      | exact hbit.2
  · rintro ⟨rfl, rfl⟩; rfl

theorem digitChar_toNat (n : Nat) (h : n < 10) : (digitChars.getD n '0').toNat = 48 + n := by
  interval_cases n <;> decide

theorem digitChar_isDigit (n : Nat) (h : n < 10) : (digitChars.getD n '0').isDigit = true := by
  interval_cases n <;> decide

theorem decimalReprAux_congr (n : Nat) : ∀ f1 f2, n < f1 → n < f2 →
    decimalReprAux f1 n = decimalReprAux f2 n := by
  induction n using Nat.strong_induction_on with
  | _ n ih =>
    intro f1 f2 h1 h2
    cases f1 with
    | zero => omega
    | succ f1 =>
      cases f2 with
      | zero => omega
      | succ f2 =>
        simp only [decimalReprAux]
        by_cases h : n < 10
        · rw [if_pos h, if_pos h]
        · have hd : n / 10 < n := Nat.div_lt_self (by omega) (by omega)
          rw [if_neg h, if_neg h,
            ih (n / 10) hd f1 f2 (by omega) (by omega)]

theorem decimalRepr_eq (n : Nat) :
    decimalRepr n = if n < 10 then [digitChars.getD n '0']
      else decimalRepr (n / 10) ++ [digitChars.getD (n % 10) '0'] := by
  by_cases h : n < 10
  · rw [decimalRepr, decimalReprAux, if_pos h, if_pos h]
  · have hd : n / 10 < n := Nat.div_lt_self (by omega) (by omega)
    rw [decimalRepr, decimalReprAux, if_neg h, if_neg h, decimalRepr,
      decimalReprAux_congr (n / 10) n (n / 10 + 1) hd (by omega)]

theorem decimalRepr_digits (n : Nat) : ∀ c ∈ decimalRepr n, c.isDigit = true := by
  induction n using Nat.strong_induction_on with
  | _ n ih =>
    rw [decimalRepr_eq]
    by_cases h : n < 10
    · rw [if_pos h]
      intro c hc
      rw [List.mem_singleton] at hc
      exact hc ▸ digitChar_isDigit n h
    · rw [if_neg h]
      intro c hc
      rcases List.mem_append.mp hc with hm | hm
      · exact ih (n / 10) (Nat.div_lt_self (by omega) (by omega)) c hm
      · rw [List.mem_singleton] at hm
        exact hm ▸ digitChar_isDigit _ (Nat.mod_lt _ (by omega))

theorem decimalRepr_ne_nil (n : Nat) : decimalRepr n ≠ [] := by
  rw [decimalRepr_eq]
  split
  · simp
  · simp

theorem isDigit_toNat_range (c : Char) (h : c.isDigit = true) :
    48 ≤ c.toNat ∧ c.toNat ≤ 57 := by
  simp only [Char.isDigit, Bool.and_eq_true, decide_eq_true_eq] at h
  obtain ⟨h1, h2⟩ := h
  constructor
  · exact h1
  · exact h2

theorem digit_ne (c : Char) (h : c.isDigit = true) :
    c ≠ '$' ∧ c ≠ '-' ∧ c ≠ '+' ∧ c ≠ ' ' ∧ c ≠ '\t' := by
  have hr := isDigit_toNat_range c h
  refine ⟨?_, ?_, ?_, ?_, ?_⟩ <;> (intro he; subst he; revert hr; decide)

theorem decimalRepr_no_dollar (n : Nat) : '$' ∉ decimalRepr n := by
  intro hm
  exact (digit_ne '$' (decimalRepr_digits n '$' hm)).1 rfl

theorem foldl_digits (n : Nat) : ∀ a : Nat,
    (decimalRepr n).foldl (fun a c => a * 10 + (c.toNat - 48)) a =
      a * 10 ^ (decimalRepr n).length + n := by
  induction n using Nat.strong_induction_on with
  | _ n ih =>
    intro a
    rw [decimalRepr_eq]
    by_cases h : n < 10
    · rw [if_pos h]
      simp only [List.foldl_cons, List.foldl_nil, List.length_singleton]
      rw [digitChar_toNat n h]
      omega
    · rw [if_neg h]
      rw [List.foldl_append, ih (n / 10) (Nat.div_lt_self (by omega) (by omega)) a]
      simp only [List.foldl_cons, List.foldl_nil, List.length_append,
        List.length_singleton]
      rw [digitChar_toNat _ (Nat.mod_lt _ (by omega)), pow_succ]
      have h10 : n % 10 < 10 := Nat.mod_lt _ (by omega)
      set q := 10 ^ (decimalRepr (n / 10)).length
      have hq : a * (q * 10) = a * q * 10 := by ring
      omega

theorem digitsVal_decimalRepr (n : Nat) : digitsVal (decimalRepr n) = n := by
  have h := foldl_digits n 0
  simpa [digitsVal] using h

/-- The head of `rest` is not a digit (vacuously so for an empty `rest`). -/
def NoDigitHead (rest : List Char) : Prop :=
  ∀ c, rest.head? = some c → c.isDigit = false

theorem noDigitHead_nil : NoDigitHead [] := by
  intro c hc
  simp at hc

theorem noDigitHead_cons (c : Char) (rest : List Char) (h : c.isDigit = false) :
    NoDigitHead (c :: rest) := by
  intro d hd
  simp only [List.head?_cons, Option.some.injEq] at hd
  exact hd ▸ h

theorem takeWhile_digits (ds rest : List Char) (hds : ∀ c ∈ ds, c.isDigit = true)
    (hrest : NoDigitHead rest) :
    (ds ++ rest).takeWhile Char.isDigit = ds ∧
      (ds ++ rest).dropWhile Char.isDigit = rest := by
  induction ds with
  | nil =>
    simp only [List.nil_append]
    cases rest with
    | nil => simp
    | cons r rs =>
      have hr : r.isDigit = false := hrest r rfl
      simp [List.takeWhile_cons, List.dropWhile_cons, hr]
  | cons d ds ih =>
    have hd : d.isDigit = true := hds d (List.mem_cons_self d ds)
    have hds' : ∀ c ∈ ds, c.isDigit = true := fun c m => hds c (List.mem_cons_of_mem d m)
    obtain ⟨h1, h2⟩ := ih hds'
    simp [List.takeWhile_cons, List.dropWhile_cons, hd, h1, h2]

theorem scanDigits_append (ds rest : List Char) (hds : ∀ c ∈ ds, c.isDigit = true)
    (hne : ds ≠ []) (hrest : NoDigitHead rest) :
    scanDigits (ds ++ rest) = some (digitsVal ds, rest) := by
  obtain ⟨h1, h2⟩ := takeWhile_digits ds rest hds hrest
  simp [scanDigits, h1, h2, hne]

theorem skipBlanks_of_digit_head (c : Char) (rest : List Char) (h : c.isDigit = true) :
    skipBlanks (c :: rest) = c :: rest := by
  obtain ⟨_, _, _, h4, h5⟩ := digit_ne c h
  simp [skipBlanks, List.dropWhile_cons, h4, h5]

theorem scanDigits_decimal (n : Nat) (rest : List Char) (hrest : NoDigitHead rest) :
    scanDigits (decimalRepr n ++ rest) = some (n, rest) := by
  rw [scanDigits_append (decimalRepr n) rest (decimalRepr_digits n)
    (decimalRepr_ne_nil n) hrest, digitsVal_decimalRepr]

theorem scanGoInt_decimal (n : Nat) (rest : List Char) (hrest : NoDigitHead rest) :
    scanGoInt (decimalRepr n ++ rest) = some ((n : Int), rest) := by
  obtain ⟨c, cs, hc⟩ : ∃ c cs, decimalRepr n = c :: cs := by
    cases h : decimalRepr n with
    | nil => exact absurd h (decimalRepr_ne_nil n)
    | cons c cs => exact ⟨c, cs, rfl⟩
  have hdig : c.isDigit = true := decimalRepr_digits n c (hc ▸ List.mem_cons_self c cs)
  obtain ⟨_, hminus, hplus, _, _⟩ := digit_ne c hdig
  have hskip : skipBlanks (decimalRepr n ++ rest) = c :: (cs ++ rest) := by
    rw [hc, List.cons_append]
    exact skipBlanks_of_digit_head c (cs ++ rest) hdig
  have hscan : scanDigits (c :: (cs ++ rest)) = some (n, rest) := by
    rw [← List.cons_append, ← hc]
    exact scanDigits_decimal n rest hrest
  rw [scanGoInt, hskip]
  split
  · next heq => exact absurd (List.cons.inj heq).1 hminus
  · next heq => exact absurd (List.cons.inj heq).1 hplus
  · next h1 h2 => rw [hscan]; rfl

theorem scanGoUint_decimal (bits n : Nat) (h : n < 2 ^ bits) (rest : List Char)
    (hrest : NoDigitHead rest) :
    scanGoUint bits (decimalRepr n ++ rest) = some (n, rest) := by
  obtain ⟨c, cs, hc⟩ : ∃ c cs, decimalRepr n = c :: cs := by
    cases hx : decimalRepr n with
    | nil => exact absurd hx (decimalRepr_ne_nil n)
    | cons c cs => exact ⟨c, cs, rfl⟩
  have hdig : c.isDigit = true := decimalRepr_digits n c (hc ▸ List.mem_cons_self c cs)
  have hskip : skipBlanks (decimalRepr n ++ rest) = decimalRepr n ++ rest := by
    rw [hc, List.cons_append]
    exact skipBlanks_of_digit_head c (cs ++ rest) hdig
  rw [scanGoUint, hskip, scanDigits_decimal n rest hrest]
  simp [h]

theorem scanVersion_decimal (n : Nat) :
    scanVersion ('v' :: '=' :: decimalRepr n) = some (n : Int) := by
  have h := scanGoInt_decimal n [] noDigitHead_nil
  rw [List.append_nil] at h
  simp [scanVersion, h]

theorem scanParams_clause (m t pr : Nat) (hm : m < 2 ^ 32) (ht : t < 2 ^ 32)
    (hp : pr < 2 ^ 8) :
    scanParams (paramsClause m t pr) = some (m, t, pr) := by
  have hcomma : (','.isDigit : Bool) = false := by decide
  have h1 : scanGoUint 32 (decimalRepr m ++
      ',' :: 't' :: '=' :: (decimalRepr t ++ ',' :: 'p' :: '=' :: decimalRepr pr)) =
      some (m, ',' :: 't' :: '=' :: (decimalRepr t ++ ',' :: 'p' :: '=' :: decimalRepr pr)) :=
    scanGoUint_decimal 32 m hm _ (noDigitHead_cons _ _ hcomma)
  have h2 : scanGoUint 32 (decimalRepr t ++ ',' :: 'p' :: '=' :: decimalRepr pr) =
      some (t, ',' :: 'p' :: '=' :: decimalRepr pr) :=
    scanGoUint_decimal 32 t ht _ (noDigitHead_cons _ _ hcomma)
  have h3 : scanGoUint 8 (decimalRepr pr) = some (pr, []) := by
    have h := scanGoUint_decimal 8 pr hp [] noDigitHead_nil
    rwa [List.append_nil] at h
  simp [scanParams, paramsClause, h1, h2, h3]

/-! ## Helper lemmas: base64 -/

theorem b64Index_b64Char_fin : ∀ v : Fin 64, b64Index (b64Char v.val) = some v.val := by
  decide

theorem b64Char_mem_fin : ∀ v : Fin 64, b64Char v.val ∈ stdAlphabet := by
  decide

theorem stdAlphabet_no_dollar : '$' ∉ stdAlphabet := by decide

theorem stdAlphabet_no_pad : '=' ∉ stdAlphabet := by decide

theorem stdAlphabet_no_newlines : '\r' ∉ stdAlphabet ∧ '\n' ∉ stdAlphabet := by decide

theorem b64Index_b64Char (v : Nat) (h : v < 64) : b64Index (b64Char v) = some v :=
  b64Index_b64Char_fin ⟨v, h⟩

theorem b64Char_mem (v : Nat) (h : v < 64) : b64Char v ∈ stdAlphabet :=
  b64Char_mem_fin ⟨v, h⟩

theorem rawStdEncode_subset (bs : List Byte) :
    ∀ c ∈ rawStdEncode bs, c ∈ stdAlphabet := by
  induction bs using rawStdEncode.induct with
  | case1 =>
    intro c hc
    simp [rawStdEncode] at hc
  | case2 a =>
    have ha := a.isLt
    intro c hc
    simp only [rawStdEncode, List.mem_cons, List.not_mem_nil, or_false] at hc
    rcases hc with h | h
    · exact h ▸ b64Char_mem _ (by omega)
    · exact h ▸ b64Char_mem _ (by omega)
  | case3 a b =>
    have ha := a.isLt
    have hb := b.isLt
    intro c hc
    simp only [rawStdEncode, List.mem_cons, List.not_mem_nil, or_false] at hc
    rcases hc with h | h | h
    · exact h ▸ b64Char_mem _ (by omega)
    · exact h ▸ b64Char_mem _ (by omega)
    · exact h ▸ b64Char_mem _ (by omega)
  | case4 a b c rest ih =>
    have ha := a.isLt
    have hb := b.isLt
    have hc' := c.isLt
    intro d hd
    simp only [rawStdEncode, List.mem_cons] at hd
    rcases hd with h | h | h | h | h
    · exact h ▸ b64Char_mem _ (by omega)
    · exact h ▸ b64Char_mem _ (by omega)
    · exact h ▸ b64Char_mem _ (by omega)
    · exact h ▸ b64Char_mem _ (by omega)
    · exact ih d h

theorem rawStdEncode_no_dollar (bs : List Byte) : '$' ∉ rawStdEncode bs :=
  fun h => stdAlphabet_no_dollar (rawStdEncode_subset bs '$' h)

theorem decodeQuanta_encode (bs : List Byte) :
    decodeQuanta (rawStdEncode bs) = some bs := by
  induction bs using rawStdEncode.induct with
  | case1 => rfl
  | case2 a =>
    have ha := a.isLt
    rw [rawStdEncode, decodeQuanta,
      b64Index_b64Char (a.val / 4) (by omega),
      b64Index_b64Char (a.val % 4 * 16) (by omega)]
    simp only [Option.bind_eq_bind, Option.some_bind, Option.pure_def,
      Option.some.injEq, List.cons.injEq, and_true]
    apply Fin.ext
    simp only [mkByte]
    omega
  | case3 a b =>
    have ha := a.isLt
    have hb := b.isLt
    rw [rawStdEncode, decodeQuanta,
      b64Index_b64Char (a.val / 4) (by omega),
      b64Index_b64Char (a.val % 4 * 16 + b.val / 16) (by omega),
      b64Index_b64Char (b.val % 16 * 4) (by omega)]
    simp only [Option.bind_eq_bind, Option.some_bind, Option.pure_def,
      Option.some.injEq, List.cons.injEq, and_true]
    refine ⟨?_, ?_⟩ <;> (apply Fin.ext; simp only [mkByte]; omega)
  | case4 a b c rest ih =>
    have ha := a.isLt
    have hb := b.isLt
    have hc := c.isLt
    rw [rawStdEncode, decodeQuanta,
      b64Index_b64Char (a.val / 4) (by omega),
      b64Index_b64Char (a.val % 4 * 16 + b.val / 16) (by omega),
      b64Index_b64Char (b.val % 16 * 4 + c.val / 64) (by omega),
      b64Index_b64Char (c.val % 64) (by omega), ih]
    simp only [Option.bind_eq_bind, Option.some_bind, Option.pure_def,
      Option.some.injEq, List.cons.injEq, and_true]
    refine ⟨?_, ?_, ?_⟩ <;> (apply Fin.ext; simp only [mkByte]; omega)

theorem rawStdDecode_encode (bs : List Byte) :
    rawStdDecode (rawStdEncode bs) = some bs := by
  rw [rawStdDecode, List.filter_eq_self.mpr, decodeQuanta_encode]
  intro c hc
  have hmem := rawStdEncode_subset bs c hc
  have h1 : c ≠ '\r' := fun e => stdAlphabet_no_newlines.1 (e ▸ hmem)
  have h2 : c ≠ '\n' := fun e => stdAlphabet_no_newlines.2 (e ▸ hmem)
  simp [h1, h2]

/-! ## Helper lemmas: constant-time comparison -/

theorem foldl_or_eq_zero (l : List Nat) : ∀ a : Nat,
    (l.foldl (fun a v => a ||| v) a = 0 ↔ a = 0 ∧ ∀ v ∈ l, v = 0) := by
  induction l with
  | nil => intro a; simp
  | cons x xs ih =>
    intro a
    rw [List.foldl_cons, ih, or_eq_zero_iff]
    constructor
    · rintro ⟨⟨ha, hx⟩, hall⟩
      refine ⟨ha, ?_⟩
      intro v hv
      rcases List.mem_cons.mp hv with rfl | hm
      · exact hx
      · exact hall v hm
    · rintro ⟨ha, hall⟩
      exact ⟨⟨ha, hall x (List.mem_cons_self x xs)⟩,
        fun v hv => hall v (List.mem_cons_of_mem x hv)⟩

theorem zipWith_xor_eq (x : List Byte) : ∀ y : List Byte, x.length = y.length →
    ((∀ v ∈ List.zipWith (fun a b : Byte => a.val ^^^ b.val) x y, v = 0) ↔ x = y) := by
  induction x with
  | nil =>
    intro y hy
    have : y = [] := by
      cases y with
      | nil => rfl
      | cons b bs => simp at hy
    subst this
    simp
  | cons a xs ih =>
    intro y hy
    cases y with
    | nil => simp at hy
    | cons b ys =>
      have hlen : xs.length = ys.length := by
        simpa using hy
      simp only [List.zipWith_cons_cons, List.mem_cons, List.cons.injEq]
      constructor
      · intro h
        have hx : a.val ^^^ b.val = 0 := h _ (Or.inl rfl)
        have hab : a = b := Fin.ext (Nat.xor_eq_zero.mp hx)
        have hrest : xs = ys := (ih ys hlen).mp fun v hv => h v (Or.inr hv)
        exact ⟨hab, hrest⟩
      · rintro ⟨rfl, rfl⟩
        intro v hv
        rcases hv with rfl | hv
        · exact Nat.xor_self a.val
        · exact ((ih xs rfl).mpr rfl) v hv

theorem ConstantTimeCompare_eq_zero_iff (x y : List Byte) :
    ConstantTimeCompare x y = 0 ↔ x ≠ y := by
  rw [ConstantTimeCompare]
  by_cases hl : x.length = y.length
  · rw [if_neg (by simp [hl])]
    by_cases hz : (List.zipWith (fun a b : Byte => a.val ^^^ b.val) x y).foldl
        (fun a v => a ||| v) 0 = 0
    · rw [if_pos hz]
      have hall := (foldl_or_eq_zero _ 0).mp hz
      have hxy : x = y := (zipWith_xor_eq x y hl).mp hall.2
      simp [hxy]
    · rw [if_neg hz]
      have hne : x ≠ y := by
        intro he
        exact hz ((foldl_or_eq_zero _ 0).mpr
          ⟨rfl, (zipWith_xor_eq x y hl).mpr he⟩)
      simp [hne]
  · rw [if_pos hl]
    have hne : x ≠ y := fun he => hl (he ▸ rfl)
    simp [hne]

/-! ## Helper lemmas: `decodeHash` -/

theorem decodeElems_invalid_iff (es : List (List Char)) :
    decodeElems es = .error .ErrInvalidHash ↔ es.length ≠ 6 := by
  have key : ∀ e0 e1 e2 e3 e4 e5 : List Char,
      decodeElems [e0, e1, e2, e3, e4, e5] ≠ .error .ErrInvalidHash := by
    intro e0 e1 e2 e3 e4 e5 h
    simp only [decodeElems] at h
    split at h
    · simp at h
    · split at h
      · simp at h
      · split at h
        · simp at h
        · split at h
          · simp at h
          · split at h
            · simp at h
            · simp at h
  rcases es with _ | ⟨e0, _ | ⟨e1, _ | ⟨e2, _ | ⟨e3, _ | ⟨e4, _ | ⟨e5, rest⟩⟩⟩⟩⟩⟩
  · simp [decodeElems]
  · simp [decodeElems]
  · simp [decodeElems]
  · simp [decodeElems]
  · simp [decodeElems]
  · simp [decodeElems]
  · cases rest with
    | nil =>
      simp only [List.length_cons, List.length_nil]
      constructor
      · intro h
        exact absurd h (key e0 e1 e2 e3 e4 e5)
      · intro h
        omega
    | cons r rs =>
      constructor
      · intro _
        simp
      · intro _
        rfl

theorem decodeElems_length_of_ok (es : List (List Char))
    (r : Params × List Byte × List Byte) (h : decodeElems es = .ok r) :
    es.length = 6 := by
  by_contra hne
  have h2 := (decodeElems_invalid_iff es).mpr hne
  rw [h] at h2
  exact Except.noConfusion h2

theorem decodeElems_head_irrel (x y : List Char) (l : List (List Char)) :
    decodeElems (x :: l) = decodeElems (y :: l) := by
  rcases l with _ | ⟨e1, _ | ⟨e2, _ | ⟨e3, _ | ⟨e4, _ | ⟨e5, rest⟩⟩⟩⟩⟩ <;> try rfl
  cases rest <;> rfl

theorem versionClause_no_dollar :
    '$' ∉ 'v' :: '=' :: decimalRepr argon2Version := by
  intro h
  rcases List.mem_cons.mp h with h1 | h
  · exact absurd h1 (by decide)
  rcases List.mem_cons.mp h with h1 | h
  · exact absurd h1 (by decide)
  exact decimalRepr_no_dollar _ h

theorem paramsClause_no_dollar (m t pr : Nat) :
    '$' ∉ paramsClause m t pr := by
  intro h
  simp only [paramsClause, List.mem_cons, List.mem_append] at h
  rcases h with h | h | (h | h | h | h | (h | h | h | h | h))
  all_goals first
  | exact absurd h (by decide)
  | exact decimalRepr_no_dollar _ h

theorem argon2idTag_no_dollar : '$' ∉ "argon2id".data := by decide

theorem splitDollar_formatHash (m t pr : Nat) (es eh : List Char)
    (hs : '$' ∉ es) (hh : '$' ∉ eh) :
    splitDollar (formatHash m t pr es eh).data =
      [[], "argon2id".data, 'v' :: '=' :: decimalRepr argon2Version,
        paramsClause m t pr, es, eh] := by
  show splitDollar ('$' :: ("argon2id".data ++
    '$' :: ('v' :: '=' :: decimalRepr argon2Version ++
      '$' :: (paramsClause m t pr ++
        '$' :: (es ++ '$' :: eh))))) = _
  rw [show splitDollar ('$' :: ("argon2id".data ++
      '$' :: ('v' :: '=' :: decimalRepr argon2Version ++
        '$' :: (paramsClause m t pr ++
          '$' :: (es ++ '$' :: eh))))) =
      [] :: splitDollar ("argon2id".data ++
        '$' :: ('v' :: '=' :: decimalRepr argon2Version ++
          '$' :: (paramsClause m t pr ++
            '$' :: (es ++ '$' :: eh)))) from by simp [splitDollar]]
  rw [splitDollar_append _ _ argon2idTag_no_dollar,
    splitDollar_append _ _ versionClause_no_dollar,
    splitDollar_append _ _ (paramsClause_no_dollar m t pr),
    splitDollar_append _ _ hs,
    splitDollar_no_dollar _ hh]

/-- Decoding a record serialized by `formatHash` from in-bounds parameters and
base64-encoded salt and key recovers the parameters (with the decoded byte
lengths) and the salt and key bytes. -/
theorem decodeHash_formatHash (m t pr : Nat) (hm : m < 2 ^ 32) (ht : t < 2 ^ 32)
    (hp : pr < 2 ^ 8) (salt key : List Byte) :
    decodeHash (formatHash m t pr (rawStdEncode salt) (rawStdEncode key)) =
      .ok (⟨m, t, pr, salt.length, key.length⟩, salt, key) := by
  rw [decodeHash, splitDollar_formatHash m t pr _ _
    (rawStdEncode_no_dollar salt) (rawStdEncode_no_dollar key)]
  simp [decodeElems, scanVersion_decimal, scanParams_clause m t pr hm ht hp,
    rawStdDecode_encode]

theorem list_len6 {α : Type} (l : List α) (h : l.length = 6) :
    ∃ a b c d e f, l = [a, b, c, d, e, f] := by
  rcases l with _ | ⟨a, l⟩
  · simp at h
  rcases l with _ | ⟨b, l⟩
  · simp at h
  rcases l with _ | ⟨c, l⟩
  · simp at h
  rcases l with _ | ⟨d, l⟩
  · simp at h
  rcases l with _ | ⟨e, l⟩
  · simp at h
  rcases l with _ | ⟨f, l⟩
  · simp at h
  have hl : l = [] := by
    simp only [List.length_cons] at h
    exact List.length_eq_zero.mp (by omega)
  exact ⟨a, b, c, d, e, f, by rw [hl]⟩

theorem decodeElems_incompatible (e0 e1 e2 e3 e4 e5 : List Char) (v : Int)
    (hv : scanVersion e2 = some v) :
    (decodeElems [e0, e1, e2, e3, e4, e5] = .error .ErrIncompatibleVersion ↔
      (e1 ≠ "argon2id".data ∨ v ≠ (argon2Version : Int))) := by
  simp only [decodeElems, hv]
  by_cases hcond : e1 ≠ "argon2id".data ∨ v ≠ (argon2Version : Int)
  · rw [if_pos hcond]
    simp [hcond]
  · rw [if_neg hcond]
    simp only [hcond, iff_false]
    intro hcontra
    split at hcontra
    · simp at hcontra
    · split at hcontra
      · simp at hcontra
      · split at hcontra
        · simp at hcontra
        · simp at hcontra

theorem decodeElems_ok_shape (e0 e1 e2 e3 e4 e5 : List Char)
    (p : Params) (s k : List Byte)
    (hok : decodeElems [e0, e1, e2, e3, e4, e5] = .ok (p, s, k)) :
    p.saltLength = s.length ∧ p.keyLength = k.length ∧
      scanParams e3 = some (p.memory, p.iterations, p.parallelism) := by
  simp only [decodeElems] at hok
  cases hver : scanVersion e2 with
  | none =>
    simp only [hver] at hok
    exact absurd hok (by simp)
  | some v =>
    simp only [hver] at hok
    by_cases hcond : e1 ≠ "argon2id".data ∨ v ≠ (argon2Version : Int)
    · rw [if_pos hcond] at hok
      exact absurd hok (by simp)
    · rw [if_neg hcond] at hok
      cases hscan : scanParams e3 with
      | none =>
        simp only [hscan] at hok
        exact absurd hok (by simp)
      | some mtp =>
        obtain ⟨m, t, pr⟩ := mtp
        simp only [hscan] at hok
        cases hsalt : rawStdDecode e4 with
        | none =>
          simp only [hsalt] at hok
          exact absurd hok (by simp)
        | some salt =>
          simp only [hsalt] at hok
          cases hkey : rawStdDecode e5 with
          | none =>
            simp only [hkey] at hok
            exact absurd hok (by simp)
          | some key =>
            simp only [hkey] at hok
            have hpair := Except.ok.inj hok
            have hp : (⟨m, t, pr, salt.length, key.length⟩ : Params) = p :=
              congrArg Prod.fst hpair
            have hs : salt = s := congrArg (fun q => q.2.1) hpair
            have hk : key = k := congrArg (fun q => q.2.2) hpair
            subst hp hs hk
            exact ⟨rfl, rfl, rfl⟩

/-! ## Claim theorems -/

/-- C1: Round-trip — for every password and every valid `Params` value (fields
positive and within their Go integer types), verifying the record produced by
`GenerateFromPassword` against the same password succeeds, i.e.
`CompareHashAndPassword` returns `nil`, assuming the key-derivation primitive
is a deterministic function of (password, salt, iterations, memory,
parallelism, keyLength) that returns `keyLength` bytes. -/
theorem generate_then_compare_ok (idKey : IDKeyFun)
    (hlen : ∀ pass salt t m par kl, (idKey pass salt t m par kl).length = kl)
    (pass : List Byte) (p : Params) (hb : p.InBounds)
    (hpos : 0 < p.memory ∧ 0 < p.iterations ∧ 0 < p.parallelism ∧
      0 < p.saltLength ∧ 0 < p.keyLength)
    (rand : List Byte) (s : String)
    (hgen : GenerateFromPassword idKey pass (some p) rand = .ok s) :
    CompareHashAndPassword idKey s pass = .ok () := by
  obtain ⟨hm, ht, hp, -, -⟩ := hb
  simp only [GenerateFromPassword] at hgen
  split at hgen
  · exact absurd hgen (by simp)
  · have hs := Except.ok.inj hgen
    have hkl : (idKey pass (rand.take p.saltLength) p.iterations p.memory
        p.parallelism p.keyLength).length = p.keyLength := hlen _ _ _ _ _ _
    rw [← hs]
    simp only [CompareHashAndPassword,
      decodeHash_formatHash p.memory p.iterations p.parallelism hm ht hp
        (rand.take p.saltLength)
        (idKey pass (rand.take p.saltLength) p.iterations p.memory
          p.parallelism p.keyLength)]
    rw [hkl, if_neg fun h0 =>
      (ConstantTimeCompare_eq_zero_iff _ _).mp h0 rfl]

theorem generate_then_compare_ok_witness :
    CompareHashAndPassword constIDKey "$argon2id$v=19$m=8,t=1,p=1$AA$Bw" [] =
      .ok () :=
  generate_then_compare_ok constIDKey
    (fun _ _ _ _ _ kl => List.length_replicate kl 7)
    [] ⟨8, 1, 1, 1, 1⟩ (by decide) (by decide) [0]
    "$argon2id$v=19$m=8,t=1,p=1$AA$Bw" (by rfl)

/-- C2: on success, `GenerateFromPassword` returns exactly the string
`$argon2id$v=<version>$m=<memory>,t=<iterations>,p=<parallelism>$<b64(salt)>$<b64(key)>`
where `<version>` is the primitive's supported version, the numbers are the
decimal renderings of the parameter fields, and the salt and key segments use
the standard (non-URL) base64 alphabet without `=` padding. -/
theorem generate_output_format (idKey : IDKeyFun) (pass : List Byte)
    (p : Params) (rand : List Byte) (s : String)
    (hgen : GenerateFromPassword idKey pass (some p) rand = .ok s) :
    splitDollar s.data =
      [[], "argon2id".data, 'v' :: '=' :: decimalRepr argon2Version,
        'm' :: '=' :: (decimalRepr p.memory ++
          ',' :: 't' :: '=' :: (decimalRepr p.iterations ++
            ',' :: 'p' :: '=' :: decimalRepr p.parallelism)),
        rawStdEncode (rand.take p.saltLength),
        rawStdEncode (idKey pass (rand.take p.saltLength) p.iterations p.memory
          p.parallelism p.keyLength)] ∧
      (∀ c ∈ rawStdEncode (rand.take p.saltLength), c ∈ stdAlphabet ∧ c ≠ '=') ∧
      (∀ c ∈ rawStdEncode (idKey pass (rand.take p.saltLength) p.iterations
        p.memory p.parallelism p.keyLength), c ∈ stdAlphabet ∧ c ≠ '=') := by
  simp only [GenerateFromPassword] at hgen
  split at hgen
  · exact absurd hgen (by simp)
  · have hs := Except.ok.inj hgen
    refine ⟨?_, ?_, ?_⟩
    · rw [← hs]
      exact splitDollar_formatHash _ _ _ _ _
        (rawStdEncode_no_dollar _) (rawStdEncode_no_dollar _)
    · intro c hc
      exact ⟨rawStdEncode_subset _ c hc,
        fun he => stdAlphabet_no_pad (he ▸ rawStdEncode_subset _ c hc)⟩
    · intro c hc
      exact ⟨rawStdEncode_subset _ c hc,
        fun he => stdAlphabet_no_pad (he ▸ rawStdEncode_subset _ c hc)⟩

theorem generate_output_format_witness :
    splitDollar (String.data "$argon2id$v=19$m=8,t=1,p=1$AA$Bw") =
      [[], "argon2id".data, 'v' :: '=' :: decimalRepr argon2Version,
        'm' :: '=' :: (decimalRepr 8 ++
          ',' :: 't' :: '=' :: (decimalRepr 1 ++
            ',' :: 'p' :: '=' :: decimalRepr 1)),
        rawStdEncode [(0 : Byte)], rawStdEncode (constIDKey [] [0] 1 8 1 1)] ∧
      (∀ c ∈ rawStdEncode [(0 : Byte)], c ∈ stdAlphabet ∧ c ≠ '=') ∧
      (∀ c ∈ rawStdEncode (constIDKey [] [0] 1 8 1 1),
        c ∈ stdAlphabet ∧ c ≠ '=') :=
  generate_output_format constIDKey [] ⟨8, 1, 1, 1, 1⟩ [0]
    "$argon2id$v=19$m=8,t=1,p=1$AA$Bw" (by rfl)

/-- C3: decoding returns `ErrInvalidHash` if and only if splitting the record
on `'$'` yields a number of segments other than 6; no other condition produces
that error. -/
theorem decode_invalidHash_iff (hash : String) :
    decodeHash hash = .error .ErrInvalidHash ↔
      (splitDollar hash.data).length ≠ 6 :=
  decodeElems_invalid_iff (splitDollar hash.data)

/-- C4: for every 6-segment record whose version clause scans as `v=<integer>`,
decoding returns `ErrIncompatibleVersion` if and only if the algorithm tag
differs from `"argon2id"` or the scanned version differs from the primitive's
supported version. -/
theorem decode_incompatibleVersion_iff (hash : String) (v : Int)
    (h6 : (splitDollar hash.data).length = 6)
    (hv : scanVersion ((splitDollar hash.data).getD 2 []) = some v) :
    (decodeHash hash = .error .ErrIncompatibleVersion ↔
      ((splitDollar hash.data).getD 1 [] ≠ "argon2id".data ∨
        v ≠ (argon2Version : Int))) := by
  obtain ⟨e0, e1, e2, e3, e4, e5, hes⟩ := list_len6 _ h6
  rw [hes] at hv
  have h := decodeElems_incompatible e0 e1 e2 e3 e4 e5 v hv
  rw [decodeHash, hes]
  exact h

theorem decode_incompatibleVersion_iff_witness :
    decodeHash "$argon2i$v=19$m=1,t=1,p=1$AA$AA" =
      .error .ErrIncompatibleVersion :=
  (decode_incompatibleVersion_iff "$argon2i$v=19$m=1,t=1,p=1$AA$AA" 19
    (by rfl) (by rfl)).mpr (Or.inl (by decide))

/-- C5: `CompareHashAndPassword` propagates any decode error unchanged; on a
successful decode it re-derives a key from the candidate password with the
parsed parameters and salt, returning `ErrPasswordNotMatch` exactly when the
re-derived key differs from the stored key (in content or in length) and `nil`
exactly when they are byte-for-byte equal. -/
theorem compare_decode_then_derive (idKey : IDKeyFun) (hash : String)
    (pass : List Byte) :
    CompareHashAndPassword idKey hash pass =
      match decodeHash hash with
      | .error e => .error e
      | .ok (p, salt, storedKey) =>
        if idKey pass salt p.iterations p.memory p.parallelism p.keyLength =
            storedKey
        then .ok () else .error .ErrPasswordNotMatch := by
  rw [CompareHashAndPassword]
  cases hd : decodeHash hash with
  | error e => rfl
  | ok r =>
    obtain ⟨p, salt, storedKey⟩ := r
    simp only []
    by_cases he : idKey pass salt p.iterations p.memory p.parallelism
        p.keyLength = storedKey
    · rw [if_pos he, if_neg fun h0 =>
        (ConstantTimeCompare_eq_zero_iff _ _).mp h0 he]
    · rw [if_neg he, if_pos ((ConstantTimeCompare_eq_zero_iff _ _).mpr he)]

/-- C6 counterexample: a record with `m=0,t=0,p=0` decodes successfully and
yields parameters whose memory, iterations and parallelism are all zero, so
parameters produced by a successful decode are not always positive. -/
theorem decode_zero_params_ok :
    decodeHash "$argon2id$v=19$m=0,t=0,p=0$AAAA$AAAA" =
      .ok (⟨0, 0, 0, 3, 3⟩, [0, 0, 0], [0, 0, 0]) := by rfl

/-- C6 (amended): positivity of `Params` fields is not enforced anywhere:
`GenerateFromPassword` accepts a zero parallelism (the configuration used by
the package's own test), and a successful decode can return zero-valued
memory, iterations and parallelism. -/
theorem params_positivity_not_enforced :
    (∀ (idKey : IDKeyFun) (pass rand : List Byte), 32 ≤ rand.length →
      ∃ s, GenerateFromPassword idKey pass (some ⟨4096, 1000, 0, 32, 64⟩) rand =
        .ok s) ∧
    ¬(∀ (hash : String) (p : Params) (s k : List Byte),
        decodeHash hash = .ok (p, s, k) → 0 < p.parallelism) := by
  constructor
  · intro idKey pass rand hrand
    cases hg : GenerateFromPassword idKey pass (some ⟨4096, 1000, 0, 32, 64⟩) rand with
    | ok s => exact ⟨s, rfl⟩
    | error e =>
      exfalso
      simp only [GenerateFromPassword] at hg
      split at hg
      · next hlt =>
          have hlt32 : rand.length < 32 := hlt
          omega
      · exact Except.noConfusion hg
  · intro hall
    have h := hall "$argon2id$v=19$m=0,t=0,p=0$AAAA$AAAA"
      ⟨0, 0, 0, 3, 3⟩ [0, 0, 0] [0, 0, 0] (by rfl)
    exact absurd h (by decide)

theorem params_positivity_not_enforced_witness :
    ∃ s, GenerateFromPassword constIDKey []
      (some ⟨4096, 1000, 0, 32, 64⟩) (List.replicate 32 0) = .ok s :=
  params_positivity_not_enforced.1 constIDKey [] (List.replicate 32 0)
    (by simp)

/-- C7: on a successful decode the returned parameters carry the values
scanned from the `m=...,t=...,p=...` clause, and `saltLength`/`keyLength`
equal the byte lengths of the base64-decoded salt and key segments; concretely,
the example record decodes to memory 4096, iterations 3, parallelism 1, a
16-byte salt and a 32-byte key. -/
theorem decode_reports_parsed_params :
    (∀ (hash : String) (p : Params) (s k : List Byte),
      decodeHash hash = .ok (p, s, k) →
        p.saltLength = s.length ∧ p.keyLength = k.length ∧
          scanParams ((splitDollar hash.data).getD 3 []) =
            some (p.memory, p.iterations, p.parallelism)) ∧
    decodeHash exampleHash = .ok (⟨4096, 3, 1, 16, 32⟩, exampleSalt, exampleKey) := by
  constructor
  · intro hash p s k hok
    have h6 : (splitDollar hash.data).length = 6 :=
      decodeElems_length_of_ok _ _ hok
    obtain ⟨e0, e1, e2, e3, e4, e5, hes⟩ := list_len6 _ h6
    have hok' : decodeElems [e0, e1, e2, e3, e4, e5] = .ok (p, s, k) := by
      rw [← hes]; exact hok
    have h := decodeElems_ok_shape e0 e1 e2 e3 e4 e5 p s k hok'
    rw [hes]
    exact h
  · rfl

theorem decode_reports_parsed_params_witness :
    (⟨4096, 3, 1, 16, 32⟩ : Params).saltLength = exampleSalt.length ∧
    (⟨4096, 3, 1, 16, 32⟩ : Params).keyLength = exampleKey.length ∧
    scanParams ((splitDollar exampleHash.data).getD 3 []) =
      some ((⟨4096, 3, 1, 16, 32⟩ : Params).memory,
        (⟨4096, 3, 1, 16, 32⟩ : Params).iterations,
        (⟨4096, 3, 1, 16, 32⟩ : Params).parallelism) :=
  decode_reports_parsed_params.1 exampleHash _ _ _
    decode_reports_parsed_params.2

/-- C8: calling `GenerateFromPassword` with `nil` parameters behaves exactly
as calling it with the documented defaults memory=4096, iterations=10,
parallelism=2, saltLength=32, keyLength=64 — for salt generation, key
derivation and serialization alike. -/
theorem generate_nil_params_defaults (idKey : IDKeyFun)
    (pass rand : List Byte) :
    GenerateFromPassword idKey pass none rand =
      GenerateFromPassword idKey pass (some ⟨4096, 10, 2, 32, 64⟩) rand := rfl

/-- C10: decoding never inspects the segment before the first `'$'`:
prepending any non-empty `'$'`-free string to a successfully-decoding record
whose leading segment is empty still yields 6 segments and decodes to the
identical parameters, salt and key. -/
theorem decode_ignores_leading_segment (junk hash : String)
    (r : Params × List Byte × List Byte)
    (hne : junk ≠ "") (hnod : ∀ c ∈ junk.data, c ≠ '$')
    (hlead : hash.data.head? = some '$')
    (hok : decodeHash hash = .ok r) :
    (splitDollar (junk ++ hash).data).length = 6 ∧
      decodeHash (junk ++ hash) = .ok r := by
  obtain ⟨rest, hrest⟩ : ∃ rest, hash.data = '$' :: rest := by
    cases hd : hash.data with
    | nil => rw [hd] at hlead; exact absurd hlead (by simp)
    | cons c cs =>
      rw [hd] at hlead
      simp only [List.head?_cons, Option.some.injEq] at hlead
      exact ⟨cs, by rw [hlead]⟩
  have hjd : '$' ∉ junk.data := fun hm => (hnod '$' hm) rfl
  have hsplit : splitDollar (junk ++ hash).data = junk.data :: splitDollar rest := by
    rw [String.data_append, hrest, splitDollar_append _ _ hjd]
  have hsplit0 : splitDollar hash.data = [] :: splitDollar rest := by
    rw [hrest]
    simp [splitDollar]
  have hlen : (splitDollar hash.data).length = 6 :=
    decodeElems_length_of_ok _ _ hok
  constructor
  · rw [hsplit]
    rw [hsplit0] at hlen
    simpa using hlen
  · show decodeElems (splitDollar (junk ++ hash).data) = .ok r
    rw [hsplit, decodeElems_head_irrel junk.data [] (splitDollar rest),
      ← hsplit0]
    exact hok

theorem decode_ignores_leading_segment_witness :
    (splitDollar ("junk" ++ exampleHash).data).length = 6 ∧
      decodeHash ("junk" ++ exampleHash) =
        .ok (⟨4096, 3, 1, 16, 32⟩, exampleSalt, exampleKey) :=
  decode_ignores_leading_segment "junk" exampleHash _
    (by decide) (by decide) (by rfl) (by rfl)

end Argon2id
